import Mathlib

/-!
Verification of the JSON-template engine of the cur-quicksight repository:
tree walker/sanitizer (`visitJson`, `assertNoHardCodedValues`), key
normalizer (`normalizeDefinitionKeys`), string replacer
(`replaceStringRecursively`), declaration rebinding
(`applyDatasetReference`), layered parameter resolution
(`createStringParameter`) and the local-to-UTC schedule time converter
(`convertLocalTimeToUtc` / `getTimeZoneOffset`).

JSON-like runtime values are embedded as the inductive type `JVal`.
A JavaScript object is a list of (key, value) entries in insertion order;
the `unres` flag on an object models `cdk.Token.isUnresolved` holding of
that object (an `IResolvable`), which is what the tree walker consults
before descending.  Deferred values in string form carry the
`${Token[...]}` marker inside the string itself.
-/

namespace CurQS

/-- JSON-like runtime value.  `obj entries unres` is a JavaScript object
with its own enumerable string-keyed entries in insertion order; `unres`
records whether `cdk.Token.isUnresolved` holds of the object (an
`IResolvable`). -/
inductive JVal where
  | null : JVal
  | bool (b : Bool) : JVal
  | num (n : Int) : JVal
  | str (s : String) : JVal
  | arr (items : List JVal) : JVal
  | obj (entries : List (String × JVal)) (unres : Bool) : JVal

/-! ## Parameter resolution (src/unnamed/part_000, `lookupFromConfig` /
`createStringParameter`) -/

/-- The two configuration layers of `ParameterSources`; `none` models an
absent `Record`, and record values are arbitrary JSON values (`Record<string, any>`). -/
structure ParameterSources where
  global : Option (List (String × JVal))
  stack : Option (List (String × JVal))

/-- `sources.layer && sources.layer[key]`: property read on an optional
record (first entry with the key, as JavaScript objects have unique keys). -/
def lookupRecord : Option (List (String × JVal)) → String → Option JVal
  | none, _ => none
  | some l, k => (l.find? (fun e => e.1 == k)).map Prod.snd

/-- The `typeof x === 'string' && x.length > 0` test used by
`lookupFromConfig`: yields the value only when it is a non-empty string. -/
def asNonEmptyString : Option JVal → Option String
  | some (.str s) => if s.length > 0 then some s else none
  | _ => none

/-- `lookupFromConfig(sources, key)`: the stack layer first, then the
global layer; each layer is consulted only for a non-empty string value. -/
def lookupFromConfig (sources : ParameterSources) (key : String) : Option String :=
  match asNonEmptyString (lookupRecord sources.stack key) with
  | some s => some s
  | none => asNonEmptyString (lookupRecord sources.global key)

/-- The resolved-value computation of `createStringParameter`:
`contextValue` models `stack.node.tryGetContext(id)` (`none` = undefined),
`providedDefault` models `parameterProps.default`.
`overrideValue = contextValue ?? configValue` (nullish coalescing: an
explicit `null` context also falls through to the config lookup), and
`resolved` is the override when it is a non-empty string, else the
declared default when that is a non-empty string, else absent. -/
def resolvedOf (contextValue : Option JVal) (providedDefault : Option JVal)
    (sources : ParameterSources) (id : String) : Option String :=
  let configValue := lookupFromConfig sources id
  let overrideValue : Option JVal :=
    match contextValue with
    | none => configValue.map JVal.str
    | some .null => configValue.map JVal.str
    | some v => some v
  let defaultResolved : Option String :=
    match providedDefault with
    | some (.str d) => if d.length > 0 then some d else none
    | _ => none
  match overrideValue with
  | some (.str s) => if s.length > 0 then some s else defaultResolved
  | _ => defaultResolved

/-- The caller-visible part of a `ParameterDefinition`: the CDK
`CfnParameter` construct and its `valueAsString` token are deploy-time
handles external to the resolution logic; `resolved` is the concrete
string computed by `createStringParameter`. -/
structure ParameterDefinition where
  resolved : Option String
  deriving Repr, DecidableEq

/-- `createStringParameter`, restricted to the data it returns:
the `resolved` field is `resolvedOf` applied to the context override,
the declared default of the props and the configuration sources. -/
def createStringParameter (contextValue : Option JVal) (providedDefault : Option JVal)
    (sources : ParameterSources) (id : String) : ParameterDefinition :=
  { resolved := resolvedOf contextValue providedDefault sources id }

/-! ## Tree walker and sanitizer (src/unnamed/part_000, `visitJson` /
`assertNoHardCodedValues`) -/

/-- A path segment of the walker: an object key or an array index. -/
inductive Seg where
  | key (k : String) : Seg
  | idx (i : Nat) : Seg
  deriving Repr, DecidableEq

/-- `pathSegments.join('.')`: each segment rendered (numbers via
`toString`) and joined with dots. -/
def Seg.render : Seg → String
  | .key k => k
  | .idx i => toString i

/-- The dotted path carried by a thrown validation error. -/
def dotted (p : List Seg) : String := String.intercalate "." (p.map Seg.render)

/-- Does `pre` occur literally at the head of `l`? -/
def startsWithChars : List Char → List Char → Bool
  | [], _ => true
  | _ :: _, [] => false
  | a :: as, b :: bs => a == b && startsWithChars as bs

/-- Substring containment at any position (JavaScript `String.includes`). -/
def hasSubChars (needle : List Char) : List Char → Bool
  | [] => startsWithChars needle []
  | c :: rest => startsWithChars needle (c :: rest) || hasSubChars needle rest

/-- `s.includes(sub)`. -/
def containsSub (s sub : String) : Bool := hasSubChars sub.data s.data

/-- Match `needle` (given in lowercase) case-insensitively at the head of
the input, returning the remaining characters: the `i` flag of the ARN
regular expression. -/
def dropLowerEq : List Char → List Char → Option (List Char)
  | [], l => some l
  | _ :: _, [] => none
  | a :: as, b :: bs => if b.toLower == a then dropLowerEq as bs else none

/-- Consume the remainder of a `[^:]+` field up to and over the closing
colon. -/
def dropFieldRest : List Char → Option (List Char)
  | [] => none
  | c :: rest => if c == ':' then some rest else dropFieldRest rest

/-- Consume `[^:]+:`: one or more non-colon characters followed by a
colon, returning what follows the colon. -/
def dropFieldColon : List Char → Option (List Char)
  | [] => none
  | c :: rest => if c == ':' then none else dropFieldRest rest

/-- Consume exactly `n` decimal digits (`\d`). -/
def dropDigits : Nat → List Char → Option (List Char)
  | 0, l => some l
  | _ + 1, [] => none
  | n + 1, c :: rest => if c.isDigit then dropDigits n rest else none

/-- The regular expression `arn:aws:[^:]+:[^:]+:\d{12}:` (flag `i`)
anchored at the current position.  Each `[^:]+` is forced to be the full
run up to the next colon, and the twelve digits must immediately follow
and be immediately followed by a colon, exactly as the backtracking
regular-expression engine resolves this pattern. -/
def arnMatchAt (l : List Char) : Bool :=
  match dropLowerEq "arn:aws:".data l with
  | none => false
  | some r1 =>
    match dropFieldColon r1 with
    | none => false
    | some r2 =>
      match dropFieldColon r2 with
      | none => false
      | some r3 =>
        match dropDigits 12 r3 with
        | none => false
        | some r4 =>
          match r4 with
          | ':' :: _ => true
          | _ => false

/-- `/arn:aws:[^:]+:[^:]+:\d{12}:/i.test(node)`: the anchored match tried
at every position of the string. -/
def arnScan : List Char → Bool
  | [] => false
  | c :: rest => arnMatchAt (c :: rest) || arnScan rest

/-- The hard-coded-ARN test of `assertNoHardCodedValues`. -/
def containsArnPattern (s : String) : Bool := arnScan s.data

/-- The opening characters of a CDK string token. -/
def tokenStart : List Char := "$\x7bToken[".data

/-- Match `needle` literally at the head of the input, returning the rest. -/
def dropExact : List Char → List Char → Option (List Char)
  | [], l => some l
  | _ :: _, [] => none
  | a :: as, b :: bs => if a == b then dropExact as bs else none

/-- After the token opener: `[^\]]*` then `]` then the closing brace.
At the first `]` the next character must close the marker; the character
class can never absorb a `]`, so no other resolution exists. -/
def tokenCloseScan : List Char → Bool
  | [] => false
  | c :: rest =>
    if c == ']' then
      match rest with
      | d :: _ => d == '\x7d'
      | [] => false
    else tokenCloseScan rest

/-- A complete deferred-token marker anchored at the current position. -/
def tokenMarkerAt (l : List Char) : Bool :=
  match dropExact tokenStart l with
  | none => false
  | some rest => tokenCloseScan rest

/-- A complete deferred-token marker anywhere in the character list. -/
def hasTokenMarker : List Char → Bool
  | [] => false
  | c :: rest => tokenMarkerAt (c :: rest) || hasTokenMarker rest

/-- Modelled from the spec: `cdk.Token.isUnresolved` applied to a string
(the CDK library itself is outside this repository).  Per the spec's
deferred-token marker description, a string is an unresolved (deferred)
value exactly when it contains a complete token marker
`${Token[...]}`. -/
def isUnresolvedString (s : String) : Bool := hasTokenMarker s.data

/-- The two forbidden-pattern violations the sanitizer distinguishes. -/
inductive ViolationKind where
  | arn : ViolationKind
  | s3uri : ViolationKind
  deriving Repr, DecidableEq

/-- The per-string check of the `assertNoHardCodedValues` visitor, with
its early returns: an unresolved (token-marked) string is exempt; then
the ARN pattern is tested first, then the `s3://` marker not accompanied
by a token opener. -/
def stringViolation (s : String) : Option ViolationKind :=
  if isUnresolvedString s then none
  else if containsArnPattern s then some .arn
  else if containsSub s "s3://" && !containsSub s "$\x7bToken[" then some .s3uri
  else none

/-- The per-node check: only string nodes can violate. -/
def nodeViolation : JVal → Option ViolationKind
  | .str s => stringViolation s
  | _ => none

mutual

/-- Pre-order traversal of `visitJson`: the node itself first, then array
elements in order with the path extended by the index, then object values
in insertion order with the path extended by the key — except that an
object for which `cdk.Token.isUnresolved` holds is not descended into. -/
def preorder : JVal → List Seg → List (JVal × List Seg)
  | .arr items, p => (.arr items, p) :: preorderArr items p 0
  | .obj entries f, p => (.obj entries f, p) :: (if f then [] else preorderObj entries p)
  | v, p => [(v, p)]

def preorderArr : List JVal → List Seg → Nat → List (JVal × List Seg)
  | [], _, _ => []
  | x :: xs, p, i => preorder x (p ++ [.idx i]) ++ preorderArr xs p (i + 1)

def preorderObj : List (String × JVal) → List Seg → List (JVal × List Seg)
  | [], _ => []
  | e :: rest, p => preorder e.2 (p ++ [.key e.1]) ++ preorderObj rest p

end

/-- The error thrown by the sanitizer, carrying the violation kind, the
dotted path at which it was found, and the supplied message context. -/
structure ValidationError where
  kind : ViolationKind
  path : String
  context : String
  deriving Repr, DecidableEq

/-- The interpolated message of the thrown `Error`. -/
def ValidationError.message (e : ValidationError) : String :=
  (match e.kind with
   | .arn => "Hardcoded ARN detected at "
   | .s3uri => "Hardcoded S3 URI detected at ") ++ e.path ++ " in " ++ e.context

/-- The first violating node of the pre-order traversal, with its path:
the node at which the visitor of `assertNoHardCodedValues` throws. -/
def firstViolation (v : JVal) : Option (ViolationKind × List Seg) :=
  (preorder v []).findSome? (fun np => (nodeViolation np.1).map (fun k => (k, np.2)))

/-- `assertNoHardCodedValues(value, messageContext)`: the visitor runs
over the pre-order traversal and the first violating node aborts the
walk by throwing; no violation returns normally. -/
def assertNoHardCodedValues (v : JVal) (context : String) : Except ValidationError Unit :=
  match firstViolation v with
  | some (k, p) => .error ⟨k, dotted p, context⟩
  | none => .ok ()

mutual

/-- Every string leaf of the tree, through arrays and all objects
(including unresolved ones, whose insides the walker never visits). -/
def allStringLeaves : JVal → List String
  | .str s => [s]
  | .arr items => allStringLeavesArr items
  | .obj entries _ => allStringLeavesObj entries
  | .null => []
  | .bool _ => []
  | .num _ => []

def allStringLeavesArr : List JVal → List String
  | [] => []
  | x :: xs => allStringLeaves x ++ allStringLeavesArr xs

def allStringLeavesObj : List (String × JVal) → List String
  | [] => []
  | e :: rest => allStringLeaves e.2 ++ allStringLeavesObj rest

end

/-! ## Key normalizer (src/infra/stack/quicksight-stack.ts,
`normalizeDefinitionKeys`) -/

/-- `key.length > 0 ? key[0].toLowerCase() + key.slice(1) : key`. -/
def lowerFirst (s : String) : String :=
  match s.data with
  | [] => s
  | c :: rest => String.mk (c.toLower :: rest)

/-- JavaScript property assignment `o[k] = v` on an object literal: an
existing key keeps its insertion position and has its value overwritten;
a new key is appended. -/
def objInsert (l : List (String × JVal)) (k : String) (v : JVal) : List (String × JVal) :=
  if l.any (fun e => e.1 == k) then l.map (fun e => if e.1 == k then (k, v) else e)
  else l ++ [(k, v)]

/-- Building a fresh object by assigning the given entries in order. -/
def insertAll (acc : List (String × JVal)) (l : List (String × JVal)) : List (String × JVal) :=
  l.foldl (fun a e => objInsert a e.1 e.2) acc

mutual

/-- `normalizeDefinitionKeys(value)`: arrays element-wise; any value of
`typeof 'object'` (a plain object and equally an unresolved
`IResolvable` — there is no `Token.isUnresolved` guard here, unlike in
`visitJson`) is rebuilt as a fresh plain object whose keys have their
first character lowercased and whose values are normalized recursively;
everything else is returned unchanged. -/
def normalizeDefinitionKeys : JVal → JVal
  | .arr items => .arr (normalizeList items)
  | .obj entries _ => .obj (insertAll [] (normalizeEntries entries)) false
  | v => v

def normalizeList : List JVal → List JVal
  | [] => []
  | x :: xs => normalizeDefinitionKeys x :: normalizeList xs

def normalizeEntries : List (String × JVal) → List (String × JVal)
  | [] => []
  | e :: rest => (lowerFirst e.1, normalizeDefinitionKeys e.2) :: normalizeEntries rest

end

/-! ## String replacer and declaration rebinding
(src/infra/stack/quicksight-stack.ts, `replaceStringRecursively` /
`applyDatasetReference`) -/

/-- The guard `typeof value === 'string' && value === search`. -/
def isSearchStr (v : JVal) (search : String) : Bool :=
  match v with
  | .str x => x == search
  | _ => false

mutual

/-- `replaceStringRecursively(target, search, replace)`, as the value of
the mutated target: each array element and each object value that is a
string exactly equal to `search` is overwritten with `replace`, every
other element or value is recursed into (in-place mutation preserves the
object identity, hence the `unres` flag); a target that is itself a
string, number, boolean or null is left as it is. -/
def replaceStringRecursively (target : JVal) (search repl : String) : JVal :=
  match target with
  | .arr items => .arr (replaceList items search repl)
  | .obj entries f => .obj (replaceEntries entries search repl) f
  | v => v

def replaceList : List JVal → String → String → List JVal
  | [], _, _ => []
  | item :: rest, s, r =>
    (if isSearchStr item s then .str r else replaceStringRecursively item s r)
      :: replaceList rest s r

def replaceEntries : List (String × JVal) → String → String → List (String × JVal)
  | [], _, _ => []
  | e :: rest, s, r =>
    (e.1, if isSearchStr e.2 s then .str r else replaceStringRecursively e.2 s r)
      :: replaceEntries rest s r

end

/-- The declarations key rewritten by `applyDatasetReference`. -/
def declarationKey : String := "dataSetIdentifierDeclarations"

/-- Property read `definition[key]` (undefined on non-objects). -/
def objLookup (v : JVal) (k : String) : Option JVal :=
  match v with
  | .obj entries _ => (entries.find? (fun e => e.1 == k)).map Prod.snd
  | _ => none

/-- Property write `definition[key] = value` (a no-op on non-objects,
which cannot occur on the guarded path). -/
def objSet (v : JVal) (k : String) (newV : JVal) : JVal :=
  match v with
  | .obj entries f => .obj (objInsert entries k newV) f
  | other => other

/-- One generated declaration entry `{ identifier, dataSetArn }`. -/
def genEntry (identifier dataSetArn : String) : JVal :=
  .obj [("identifier", .str identifier), ("dataSetArn", .str dataSetArn)] false

/-- The declaration-rebinding step of `applyDatasetReference`: when
`definition[declarationKey]` is an array, it is replaced by the result of
mapping each existing stub entry to the generated `(identifier,
dataSetArn)` entry. -/
def rebindDeclarations (definition : JVal) (datasetArn identifier : String) : JVal :=
  match objLookup definition declarationKey with
  | some (.arr stubs) =>
    objSet definition declarationKey (.arr (stubs.map (fun _ => genEntry identifier datasetArn)))
  | _ => definition

/-- `applyDatasetReference(definition, datasetArn, identifier)`: the
declaration rebind followed by the two exact-match string substitutions
binding the template-authored placeholder identifier and dataset ARN. -/
def applyDatasetReference (definition : JVal) (datasetArn identifier : String) : JVal :=
  let d1 := rebindDeclarations definition datasetArn identifier
  let d2 := replaceStringRecursively d1 "synnex-org-usage" identifier
  replaceStringRecursively d2
    "arn:aws:quicksight:us-east-1:168000259484:dataset/f135f8e9-8ff0-4224-b130-e007b88ed65e"
    datasetArn

/-! ## Schedule time converter (src/infra/stack/quicksight-stack.ts,
`convertLocalTimeToUtc` / `getTimeZoneOffset`)

JavaScript numbers that can be `NaN` (a failed `parseInt`, an invalid
`Date`) are embedded as `Option Int` with `none` for `NaN`. -/

/-- `localTime.split(':')`: the list of colon-separated chunks, with
empty chunks preserved (`""` splits to `[""]`, `":"` to `["", ""]`). -/
def splitOnColon : List Char → List (List Char)
  | [] => [[]]
  | c :: rest =>
    match splitOnColon rest with
    | [] => [[c]]
    | g :: gs => if c == ':' then [] :: g :: gs else (c :: g) :: gs

/-- The whitespace skipped by `parseInt`. -/
def isJsSpace (c : Char) : Bool :=
  c == ' ' || c == '\t' || c == '\n' || c == '\r'

/-- Value of a non-empty run of decimal digits. -/
def digitsVal (l : List Char) : Nat :=
  l.foldl (fun a c => a * 10 + (c.toNat - 48)) 0

/-- `parseInt(s, 10)`: skip leading whitespace, an optional sign, then
the maximal run of leading decimal digits; `NaN` (`none`) when that run
is empty. -/
def parseIntJs (s : String) : Option Int :=
  let l := s.data.dropWhile isJsSpace
  match l with
  | '-' :: rest =>
    let ds := (rest.takeWhile Char.isDigit)
    if ds.isEmpty then none else some (-(digitsVal ds : Int))
  | '+' :: rest =>
    let ds := (rest.takeWhile Char.isDigit)
    if ds.isEmpty then none else some (digitsVal ds : Int)
  | rest =>
    let ds := (rest.takeWhile Char.isDigit)
    if ds.isEmpty then none else some (digitsVal ds : Int)

/-- Proleptic-Gregorian day number of a civil date, with day 0 being
1970-01-01 (the computation performed by `Date.UTC`). -/
def daysFromCivil (y m d : Int) : Int :=
  let y2 := if m ≤ 2 then y - 1 else y
  let era := y2.fdiv 400
  let yoe := y2 - era * 400
  let mp := if m ≤ 2 then m + 9 else m - 3
  let doy := (153 * mp + 2).fdiv 5 + d - 1
  let doe := yoe * 365 + yoe.fdiv 4 - yoe.fdiv 100 + doy
  era * 146097 + doe - 719468

/-- Inverse of `daysFromCivil`: the civil `(year, month, day)` of a day
number (the computation performed by the UTC field accessors of `Date`
and by the formatter's wall-clock fields). -/
def civilFromDays (z0 : Int) : Int × Int × Int :=
  let z := z0 + 719468
  let era := z.fdiv 146097
  let doe := z - era * 146097
  let yoe := (doe - doe.fdiv 1460 + doe.fdiv 36524 - doe.fdiv 146096).fdiv 365
  let y := yoe + era * 400
  let doy := doe - (365 * yoe + yoe.fdiv 4 - yoe.fdiv 100)
  let mp := (5 * doy + 2).fdiv 153
  let d := doy - (153 * mp + 2).fdiv 5 + 1
  let m := if mp < 10 then mp + 3 else mp - 9
  (if m ≤ 2 then y + 1 else y, m, d)

/-- The wall-clock fields (down to seconds, as formatted by the
`Intl.DateTimeFormat` parts) of an instant. -/
structure Civil where
  year : Int
  month : Int
  day : Int
  hour : Int
  minute : Int
  second : Int
  deriving Repr, DecidableEq

/-- Civil fields of a millisecond instant (UTC decomposition of a valid
`Date`). -/
def civilFromMs (t : Int) : Civil :=
  let days := t.fdiv 86400000
  let msod := t - days * 86400000
  let ymd := civilFromDays days
  { year := ymd.1, month := ymd.2.1, day := ymd.2.2,
    hour := msod.fdiv 3600000,
    minute := (msod.fdiv 60000) % 60,
    second := (msod.fdiv 1000) % 60 }

/-- `Date.UTC(year, month - 1, day, hour, minute, second)` before range
clipping: milliseconds are dropped because the formatter exposes no
sub-second field. -/
def msFromCivil (c : Civil) : Int :=
  daysFromCivil c.year c.month c.day * 86400000
    + c.hour * 3600000 + c.minute * 60000 + c.second * 1000

/-- The largest millisecond magnitude a `Date` can hold. -/
def maxTimeMs : Int := 8640000000000000

/-- `TimeClip`: a time value beyond the `Date` range becomes `NaN`. -/
def timeClip (t : Int) : Option Int :=
  if t.natAbs ≤ 8640000000000000 then some t else none

/-- Modelled from the spec: the IANA zone database consulted through
`Intl.DateTimeFormat` (the ICU library is outside this repository).  Per
the spec, only a single offset lookup is needed: `Asia/Bangkok` is UTC+7
with no daylight saving and `America/New_York` is UTC−5 at the January
reference date; `UTC` is zero; every other identifier is unresolvable and
makes the `Intl.DateTimeFormat` constructor throw.  Offsets are minutes
east of UTC, valid at the fixed reference window used by the converter. -/
def zoneOffsetMin : String → Option Int
  | "Asia/Bangkok" => some 420
  | "America/New_York" => some (-300)
  | "UTC" => some 0
  | _ => none

/-- `getTimeZoneOffset(date, timeZone)`: the `Intl.DateTimeFormat`
constructor throws on an unresolvable zone; `formatToParts` throws on an
invalid date; otherwise the instant's wall-clock fields in the zone (the
instant shifted by the zone's offset) are reassembled with `Date.UTC`
and the original time value is subtracted.  The result is a JavaScript
number, `NaN` (`none`) when `Date.UTC` clipped out of range. -/
def getTimeZoneOffset (date : Option Int) (timeZone : String) : Except String (Option Int) :=
  match zoneOffsetMin timeZone with
  | none => .error ("Invalid time zone specified: " ++ timeZone)
  | some o =>
    match date with
    | none => .error "Invalid time value"
    | some t =>
      let c := civilFromMs (t + o * 60000)
      (timeClip (msFromCivil c)).map (fun asUtc => asUtc - t) |> .ok

/-- `n.toString().padStart(2, '0')` for a possibly-`NaN` number. -/
def jsToString2Pad (n : Option Int) : String :=
  match n with
  | none => "NaN"
  | some v =>
    let s := toString v
    if s.length < 2 then "0" ++ s else s

/-- The reference instant built by `convertLocalTimeToUtc`: split on
`:`, parse hour and minute with `parseInt` (a missing minute part is
`undefined`, hence `NaN`), and interpret them as UTC on the fixed
reference date 1970-01-01 — `new Date(Date.UTC(1970, 0, 1, hour, minute,
0, 0))`, with arithmetic overflow normalization and range clipping;
`none` is the invalid date. -/
def referenceInstant (localTime : String) : Option Int :=
  let parts := (splitOnColon localTime.data).map (fun cs => parseIntJs (String.mk cs))
  let hour : Option Int := (parts.get? 0).getD none
  let minute : Option Int := (parts.get? 1).getD none
  match hour, minute with
  | some h, some m => timeClip (h * 3600000 + m * 60000)
  | _, _ => none

/-- `convertLocalTimeToUtc(localTime, timezone)`: build the reference
instant, subtract the zone offset computed by `getTimeZoneOffset`, and
format the UTC hour and minute of the result zero-padded.  Errors are
exactly the exceptions thrown inside `getTimeZoneOffset`. -/
def convertLocalTimeToUtc (localTime timezone : String) : Except String String :=
  let reference : Option Int := referenceInstant localTime
  match getTimeZoneOffset reference timezone with
  | .error e => .error e
  | .ok offset =>
    let utcDate : Option Int :=
      match reference, offset with
      | some t, some off => timeClip (t - off)
      | _, _ => none
    .ok (jsToString2Pad (utcDate.map (fun u => (civilFromMs u).hour)) ++ ":"
          ++ jsToString2Pad (utcDate.map (fun u => (civilFromMs u).minute)))

/-! ## Statement-side observers -/

/-- Structural access to the node at a path: array elements by index,
object values by key (through every object, mirroring how
`replaceStringRecursively` descends without an unresolved guard). -/
def pathGet : JVal → List Seg → Option JVal
  | v, [] => some v
  | .arr items, .idx i :: rest => items[i]?.bind (fun c => pathGet c rest)
  | .obj entries _, .key k :: rest =>
    ((entries.find? (fun e => e.1 == k)).map Prod.snd).bind (fun c => pathGet c rest)
  | _, _ => none

/-- A string matching one of the sanitizer's forbidden patterns: the
fully-qualified ARN with a literal 12-digit account, or the `s3://`
storage-URI marker not accompanied by a deferred-token opener. -/
def matchesForbidden (s : String) : Bool :=
  containsArnPattern s || (containsSub s "s3://" && !containsSub s "$\x7bToken[")

/-! ## Supporting lemmas -/

theorem find?_objInsert (l : List (String × JVal)) (k : String) (v : JVal) :
    (objInsert l k v).find? (fun e => e.1 == k) = some (k, v) := by
  unfold objInsert
  by_cases h : l.any (fun e => e.1 == k)
  · rw [if_pos h]
    induction l with
    | nil => simp at h
    | cons e rest ih =>
      by_cases he : e.1 == k
      · simp [List.find?, he]
      · have hrest : rest.any (fun e => e.1 == k) := by
          simpa [List.any_cons, he] using h
        simp only [List.map_cons]
        rw [if_neg he]
        have hstep := List.find?_cons_of_neg (p := fun q : String × JVal => q.1 == k)
          (List.map (fun q : String × JVal => if q.1 == k then (k, v) else q) rest) (a := e) he
        rw [hstep]
        exact ih hrest
  · rw [if_neg h]
    rw [List.find?_append]
    have hnone : l.find? (fun e => e.1 == k) = none := by
      rw [List.find?_eq_none]
      intro x hx hpx
      exact h (List.any_eq_true.mpr ⟨x, hx, hpx⟩)
    simp [hnone, List.find?]

theorem charToNat_ofNat (m : Nat) (h : m.isValidChar) : (Char.ofNat m).toNat = m := by
  have h32 : m < 4294967296 := by rcases h with h1 | h1 <;> omega
  simp [Char.ofNat, h, Char.ofNatAux, Char.toNat, UInt32.toNat]

theorem toLower_idem (c : Char) : c.toLower.toLower = c.toLower := by
  unfold Char.toLower
  by_cases h : c.toNat ≥ 65 ∧ c.toNat ≤ 90
  · have hv : (c.toNat + 32).isValidChar := Or.inl (by omega)
    have ht : (Char.ofNat (c.toNat + 32)).toNat = c.toNat + 32 := charToNat_ofNat _ hv
    rw [if_pos h, if_neg (by rw [ht]; omega)]
  · rw [if_neg h, if_neg h]

theorem lowerFirst_idem (s : String) : lowerFirst (lowerFirst s) = lowerFirst s := by
  unfold lowerFirst
  match s with
  | ⟨[]⟩ => rfl
  | ⟨c :: rest⟩ => simp [toLower_idem]

theorem normalizeList_eq_map : ∀ l : List JVal,
    normalizeList l = l.map normalizeDefinitionKeys
  | [] => rfl
  | x :: xs => by simp [normalizeList, normalizeList_eq_map xs]

theorem normalizeEntries_eq_map : ∀ l : List (String × JVal),
    normalizeEntries l = l.map (fun e => (lowerFirst e.1, normalizeDefinitionKeys e.2))
  | [] => rfl
  | e :: rest => by simp [normalizeEntries, normalizeEntries_eq_map rest]

theorem keys_objInsert (l : List (String × JVal)) (k : String) (v : JVal) :
    (objInsert l k v).map Prod.fst
      = if l.any (fun e => e.1 == k) then l.map Prod.fst else l.map Prod.fst ++ [k] := by
  unfold objInsert
  by_cases h : l.any (fun e => e.1 == k)
  · rw [if_pos h, if_pos h, List.map_map]
    refine List.map_congr_left (fun e he => ?_)
    by_cases hek : e.1 = k
    · simp [hek]
    · simp [hek]
  · rw [if_neg h, if_neg h, List.map_append]
    rfl

theorem nodup_keys_objInsert (l : List (String × JVal)) (k : String) (v : JVal)
    (h : (l.map Prod.fst).Nodup) : ((objInsert l k v).map Prod.fst).Nodup := by
  rw [keys_objInsert]
  by_cases ha : l.any (fun e => e.1 == k)
  · rwa [if_pos ha]
  · rw [if_neg ha]
    have hk : k ∉ l.map Prod.fst := by
      intro hmem
      obtain ⟨e, he, hk⟩ := List.mem_map.mp hmem
      exact ha (List.any_eq_true.mpr ⟨e, he, beq_iff_eq.mpr hk⟩)
    simp [List.nodup_append, h, hk]

theorem nodup_keys_insertAll (l acc : List (String × JVal))
    (h : (acc.map Prod.fst).Nodup) : ((insertAll acc l).map Prod.fst).Nodup := by
  induction l generalizing acc with
  | nil => exact h
  | cons e rest ih => exact ih _ (nodup_keys_objInsert _ _ _ h)

theorem mem_objInsert (l : List (String × JVal)) (k : String) (v : JVal)
    (e : String × JVal) (h : e ∈ objInsert l k v) : e ∈ l ∨ e = (k, v) := by
  unfold objInsert at h
  by_cases ha : l.any (fun q => q.1 == k)
  · rw [if_pos ha] at h
    obtain ⟨x, hx, hfx⟩ := List.mem_map.mp h
    by_cases hxk : x.1 == k
    · rw [if_pos hxk] at hfx
      exact Or.inr hfx.symm
    · rw [if_neg hxk] at hfx
      exact Or.inl (hfx ▸ hx)
  · rw [if_neg ha] at h
    rcases List.mem_append.mp h with h1 | h1
    · exact Or.inl h1
    · exact Or.inr (List.mem_singleton.mp h1)

theorem mem_insertAll (l acc : List (String × JVal)) (e : String × JVal)
    (h : e ∈ insertAll acc l) : e ∈ acc ∨ e ∈ l := by
  induction l generalizing acc with
  | nil => exact Or.inl h
  | cons a rest ih =>
    rcases ih (objInsert acc a.1 a.2) h with h1 | h1
    · rcases mem_objInsert _ _ _ _ h1 with h2 | h2
      · exact Or.inl h2
      · exact Or.inr (by simp [h2])
    · exact Or.inr (List.mem_cons_of_mem _ h1)

theorem insertAll_of_fresh (l acc : List (String × JVal))
    (hnd : (l.map Prod.fst).Nodup)
    (hdisj : ∀ e ∈ l, e.1 ∉ acc.map Prod.fst) :
    insertAll acc l = acc ++ l := by
  induction l generalizing acc with
  | nil => simp [insertAll]
  | cons a rest ih =>
    have hka : ¬acc.any (fun q => q.1 == a.1) := by
      intro hany
      obtain ⟨x, hx, hbeq⟩ := List.any_eq_true.mp hany
      exact hdisj a (List.mem_cons_self _ _)
        (List.mem_map.mpr ⟨x, hx, beq_iff_eq.mp hbeq⟩)
    have hstep : objInsert acc a.1 a.2 = acc ++ [(a.1, a.2)] := by
      unfold objInsert
      rw [if_neg hka]
    have ha : (a.1, a.2) = a := rfl
    have hnd2 : (rest.map Prod.fst).Nodup := (List.nodup_cons.mp hnd).2
    have hdisj2 : ∀ e ∈ rest, e.1 ∉ (acc ++ [a]).map Prod.fst := by
      intro e he hmem
      rw [List.map_append, List.mem_append] at hmem
      rcases hmem with hm | hm
      · exact hdisj e (List.mem_cons_of_mem _ he) hm
      · have : e.1 = a.1 := by simpa using hm
        exact (List.nodup_cons.mp hnd).1 (this ▸ List.mem_map.mpr ⟨e, he, rfl⟩)
    calc insertAll acc (a :: rest)
        = insertAll (acc ++ [a]) rest := by
          show insertAll (objInsert acc a.1 a.2) rest = _
          rw [hstep, ha]
      _ = (acc ++ [a]) ++ rest := ih _ hnd2 hdisj2
      _ = acc ++ (a :: rest) := by simp

theorem normalizeEntries_fixed (m : List (String × JVal))
    (h : ∀ e ∈ m, lowerFirst e.1 = e.1 ∧ normalizeDefinitionKeys e.2 = e.2) :
    normalizeEntries m = m := by
  induction m with
  | nil => rfl
  | cons e rest ih =>
    have he := h e (List.mem_cons_self _ _)
    have hrest := ih (fun x hx => h x (List.mem_cons_of_mem _ hx))
    show (lowerFirst e.1, normalizeDefinitionKeys e.2) :: normalizeEntries rest = e :: rest
    rw [he.1, he.2, hrest]

theorem replaceList_eq_map (s r : String) : ∀ l : List JVal,
    replaceList l s r
      = l.map (fun c => if isSearchStr c s then .str r else replaceStringRecursively c s r)
  | [] => rfl
  | x :: xs => by
    show _ :: replaceList xs s r = _
    rw [replaceList_eq_map s r xs, List.map_cons]

theorem replaceEntries_eq_map (s r : String) : ∀ l : List (String × JVal),
    replaceEntries l s r
      = l.map (fun e =>
          (e.1, if isSearchStr e.2 s then .str r else replaceStringRecursively e.2 s r))
  | [] => rfl
  | e :: rest => by
    show _ :: replaceEntries rest s r = _
    rw [replaceEntries_eq_map s r rest, List.map_cons]

theorem isSearchStr_iff (c : JVal) (s : String) : isSearchStr c s = true ↔ c = JVal.str s := by
  cases c <;> simp [isSearchStr]

theorem pathGet_replace (s r : String) : ∀ (p : List Seg) (t : JVal),
    pathGet (replaceStringRecursively t s r) p
      = (pathGet t p).map (fun v =>
          if p ≠ [] ∧ isSearchStr v s then .str r else replaceStringRecursively v s r)
  | [], t => by simp [pathGet]
  | seg :: rest, .null => by cases seg <;> simp [pathGet, replaceStringRecursively]
  | seg :: rest, .bool b => by cases seg <;> simp [pathGet, replaceStringRecursively]
  | seg :: rest, .num n => by cases seg <;> simp [pathGet, replaceStringRecursively]
  | seg :: rest, .str x => by cases seg <;> simp [pathGet, replaceStringRecursively]
  | .key k :: rest, .arr items => by simp [pathGet, replaceStringRecursively]
  | .idx i :: rest, .obj entries f => by simp [pathGet, replaceStringRecursively]
  | .idx i :: rest, .arr items => by
    show pathGet (.arr (replaceList items s r)) (.idx i :: rest) = _
    rw [replaceList_eq_map]
    show ((items.map _)[i]?.bind fun c => pathGet c rest) = _
    rw [List.getElem?_map]
    show (items[i]?.map _).bind (fun c => pathGet c rest)
      = (items[i]?.bind fun c => pathGet c rest).map _
    cases hc : items[i]? with
    | none => simp
    | some c =>
      simp only [Option.map_some', Option.some_bind]
      by_cases hs : isSearchStr c s
      · have hcs : c = .str s := (isSearchStr_iff c s).mp hs
        subst hcs
        cases rest with
        | nil => simp [pathGet, hs, isSearchStr]
        | cons a b => simp [pathGet, hs]
      · rw [if_neg hs]
        cases rest with
        | nil => simp [pathGet, hs]
        | cons a b =>
          rw [pathGet_replace s r (a :: b) c]
          simp
  | .key k :: rest, .obj entries f => by
    show pathGet (.obj (replaceEntries entries s r) f) (.key k :: rest) = _
    rw [replaceEntries_eq_map]
    show ((((entries.map _).find? fun e => e.1 == k).map Prod.snd).bind fun c =>
        pathGet c rest) = _
    rw [List.find?_map]
    show ((((entries.find? fun e => e.1 == k).map _).map Prod.snd).bind fun c =>
        pathGet c rest) = _
    cases hc : entries.find? (fun e => e.1 == k) with
    | none => simp [pathGet, hc]
    | some e =>
      simp only [Option.map_some', Option.some_bind, pathGet, hc]
      by_cases hs : isSearchStr e.2 s
      · have hcs : e.2 = .str s := (isSearchStr_iff e.2 s).mp hs
        rw [hcs] at hs ⊢
        cases rest with
        | nil => simp [pathGet, hs, isSearchStr]
        | cons a b => simp [pathGet, hs]
      · rw [if_neg hs]
        cases rest with
        | nil => simp [pathGet, hs]
        | cons a b =>
          rw [pathGet_replace s r (a :: b) e.2]
          simp
termination_by p _ => p.length

theorem findSome?_split {α β : Type} (f : α → Option β) (l : List α) (b : β)
    (h : l.findSome? f = some b) :
    ∃ l1 a l2, l = l1 ++ a :: l2 ∧ (∀ x ∈ l1, f x = none) ∧ f a = some b := by
  induction l with
  | nil => simp [List.findSome?] at h
  | cons x xs ih =>
    rw [List.findSome?_cons] at h
    cases hx : f x with
    | some c =>
      rw [hx] at h
      have h2 : some c = some b := h
      exact ⟨[], x, xs, rfl, by simp, by rw [hx, h2]⟩
    | none =>
      rw [hx] at h
      obtain ⟨l1, a, l2, he, h1, h2⟩ := ih h
      refine ⟨x :: l1, a, l2, by rw [he, List.cons_append], ?_, h2⟩
      intro y hy
      rcases List.mem_cons.mp hy with h3 | h3
      · rw [h3, hx]
      · exact h1 y h3

mutual

theorem strLeaf_of_mem_preorder : ∀ (t : JVal) (p0 p : List Seg) (x : String),
    (JVal.str x, p) ∈ preorder t p0 → x ∈ allStringLeaves t
  | .null, p0, p, x => by simp [preorder, allStringLeaves]
  | .bool b, p0, p, x => by simp [preorder, allStringLeaves]
  | .num n, p0, p, x => by simp [preorder, allStringLeaves]
  | .str y, p0, p, x => by
    intro h
    simp only [preorder, List.mem_singleton, Prod.mk.injEq, JVal.str.injEq] at h
    simp [allStringLeaves, h.1]
  | .arr items, p0, p, x => by
    intro h
    rcases List.mem_cons.mp h with h1 | h1
    · exact absurd (congrArg Prod.fst h1) (by simp)
    · exact strLeaf_of_mem_preorderArr items p0 0 p x h1
  | .obj entries f, p0, p, x => by
    intro h
    rcases List.mem_cons.mp h with h1 | h1
    · exact absurd (congrArg Prod.fst h1) (by simp)
    · cases f with
      | true => simp at h1
      | false => exact strLeaf_of_mem_preorderObj entries p0 p x h1

theorem strLeaf_of_mem_preorderArr : ∀ (l : List JVal) (p0 : List Seg) (i : Nat)
    (p : List Seg) (x : String),
    (JVal.str x, p) ∈ preorderArr l p0 i → x ∈ allStringLeavesArr l
  | [], p0, i, p, x => by simp [preorderArr]
  | y :: ys, p0, i, p, x => by
    intro h
    rcases List.mem_append.mp h with h1 | h1
    · exact List.mem_append.mpr (Or.inl (strLeaf_of_mem_preorder y _ p x h1))
    · exact List.mem_append.mpr (Or.inr (strLeaf_of_mem_preorderArr ys p0 (i + 1) p x h1))

theorem strLeaf_of_mem_preorderObj : ∀ (l : List (String × JVal)) (p0 p : List Seg)
    (x : String),
    (JVal.str x, p) ∈ preorderObj l p0 → x ∈ allStringLeavesObj l
  | [], p0, p, x => by simp [preorderObj]
  | e :: rest, p0, p, x => by
    intro h
    rcases List.mem_append.mp h with h1 | h1
    · exact List.mem_append.mpr (Or.inl (strLeaf_of_mem_preorder e.2 _ p x h1))
    · exact List.mem_append.mpr (Or.inr (strLeaf_of_mem_preorderObj rest p0 p x h1))

end

theorem stringViolation_of_clean (s : String) (h : matchesForbidden s = false) :
    stringViolation s = none := by
  unfold matchesForbidden at h
  rw [Bool.or_eq_false_iff] at h
  unfold stringViolation
  by_cases hu : isUnresolvedString s
  · rw [if_pos hu]
  · rw [if_neg hu, if_neg (by simp [h.1]), if_neg (by simp [h.2])]

theorem stringViolation_unresolved (s : String) (h : isUnresolvedString s = true) :
    stringViolation s = none := by
  unfold stringViolation
  rw [if_pos h]

theorem daysFromCivil_civilFromDays_small : ∀ d : Int, -2 ≤ d → d ≤ 2 →
    daysFromCivil (civilFromDays d).1 (civilFromDays d).2.1 (civilFromDays d).2.2 = d := by
  intro d h1 h2
  interval_cases d <;> decide

theorem msFromCivil_civilFromMs (t : Int) (hlo : -(2 * 86400000) ≤ t)
    (hhi : t < 3 * 86400000) (hsec : t % 1000 = 0) :
    msFromCivil (civilFromMs t) = t := by
  have e1 : ∀ a : Int, a.fdiv 86400000 = a / 86400000 := fun a => Int.fdiv_eq_ediv a (by norm_num)
  have e2 : ∀ a : Int, a.fdiv 3600000 = a / 3600000 := fun a => Int.fdiv_eq_ediv a (by norm_num)
  have e3 : ∀ a : Int, a.fdiv 60000 = a / 60000 := fun a => Int.fdiv_eq_ediv a (by norm_num)
  have e4 : ∀ a : Int, a.fdiv 1000 = a / 1000 := fun a => Int.fdiv_eq_ediv a (by norm_num)
  have hcv : civilFromMs t = ⟨(civilFromDays (t.fdiv 86400000)).1,
      (civilFromDays (t.fdiv 86400000)).2.1, (civilFromDays (t.fdiv 86400000)).2.2,
      (t - (t.fdiv 86400000) * 86400000).fdiv 3600000,
      ((t - (t.fdiv 86400000) * 86400000).fdiv 60000) % 60,
      ((t - (t.fdiv 86400000) * 86400000).fdiv 1000) % 60⟩ := rfl
  rw [hcv]
  show daysFromCivil (civilFromDays (t.fdiv 86400000)).1 (civilFromDays (t.fdiv 86400000)).2.1
      (civilFromDays (t.fdiv 86400000)).2.2 * 86400000
    + ((t - (t.fdiv 86400000) * 86400000).fdiv 3600000) * 3600000
    + (((t - (t.fdiv 86400000) * 86400000).fdiv 60000) % 60) * 60000
    + (((t - (t.fdiv 86400000) * 86400000).fdiv 1000) % 60) * 1000 = t
  rw [e1]
  have hd1 : -2 ≤ t / 86400000 := by omega
  have hd2 : t / 86400000 ≤ 2 := by omega
  rw [daysFromCivil_civilFromDays_small _ hd1 hd2, e2, e3, e4]
  omega

/-! ## Claim theorems -/

/-- C1 (counterexample): with an override that is present but an empty
string, a non-empty stack value, a non-empty global value and a plain
non-empty string default all present for the name, the resolved value is
the declared default, not the stack value — so it is false that at every
layer empty strings are skipped with the first non-empty layer winning. -/
theorem c1_counterexample :
    (createStringParameter (some (.str "")) (some (.str "default-v"))
        ⟨some [("P", .str "global-v")], some [("P", .str "stack-v")]⟩ "P").resolved
      = some "default-v"
    ∧ (some "default-v" : Option String) ≠ some "stack-v" := by
  exact ⟨rfl, by decide⟩

/-- C1 (amended): `createStringParameter` resolves with precedence
override > stack > global > declared default, where a non-empty string
override wins; with a nullish override the stack then global layers are
consulted, skipping empty-string, absent and non-string values; when no
layer wins, the declared default is used when it is a non-empty string
and the resolved value is absent otherwise.  However a present-but-empty
override is itself unusable yet still masks the stack and global layers,
so resolution falls directly through to the declared default. -/
theorem c1_parameter_precedence (id o s g d : String)
    (ho : 0 < o.length) (hs : 0 < s.length) (hg : 0 < g.length) (hd : 0 < d.length) :
    ((createStringParameter (some (.str o)) (some (.str d))
        ⟨some [(id, .str g)], some [(id, .str s)]⟩ id).resolved = some o)
    ∧ ((createStringParameter none (some (.str d))
        ⟨some [(id, .str g)], some [(id, .str s)]⟩ id).resolved = some s)
    ∧ ((createStringParameter none (some (.str d))
        ⟨some [(id, .str g)], none⟩ id).resolved = some g)
    ∧ ((createStringParameter none (some (.str d))
        ⟨some [(id, .str g)], some [(id, .str "")]⟩ id).resolved = some g)
    ∧ ((createStringParameter none (some (.str d))
        ⟨some [(id, .str g)], some [(id, .num 7)]⟩ id).resolved = some g)
    ∧ ((createStringParameter none (some (.str d)) ⟨none, none⟩ id).resolved = some d)
    ∧ (∀ entries f, (createStringParameter none (some (.obj entries f))
        ⟨none, none⟩ id).resolved = none)
    ∧ ((createStringParameter none none ⟨none, none⟩ id).resolved = none)
    ∧ ((createStringParameter (some (.str "")) (some (.str d))
        ⟨some [(id, .str g)], some [(id, .str s)]⟩ id).resolved = some d) := by
  refine ⟨?_, ?_, ?_, ?_, ?_, ?_, ?_, ?_, ?_⟩ <;>
    simp [createStringParameter, resolvedOf, lookupFromConfig, lookupRecord,
      asNonEmptyString, List.find?, ho, hs, hg, hd, Nat.pos_iff_ne_zero]

/-- C1 (witness). -/
theorem c1_parameter_precedence_witness :
    ((createStringParameter (some (.str "ov")) (some (.str "dv"))
        ⟨some [("P", .str "gv")], some [("P", .str "sv")]⟩ "P").resolved = some "ov")
    ∧ ((createStringParameter none (some (.str "dv"))
        ⟨some [("P", .str "gv")], some [("P", .str "sv")]⟩ "P").resolved = some "sv") := by
  have h := c1_parameter_precedence "P" "ov" "sv" "gv" "dv"
    (by decide) (by decide) (by decide) (by decide)
  exact ⟨h.1, h.2.1⟩

/-- C2 (counterexample): a declarations array holding three stub entries
is rewritten by `applyDatasetReference` to three identical generated
entries — not to exactly one entry for the single supplied pair. -/
theorem c2_counterexample :
    objLookup (applyDatasetReference
        (.obj [(declarationKey, .arr [.null, .null, .null])] false) "ds-arn" "cur-dataset")
        declarationKey
      = some (.arr [genEntry "cur-dataset" "ds-arn", genEntry "cur-dataset" "ds-arn",
          genEntry "cur-dataset" "ds-arn"])
    ∧ JVal.arr [genEntry "cur-dataset" "ds-arn", genEntry "cur-dataset" "ds-arn",
          genEntry "cur-dataset" "ds-arn"]
      ≠ JVal.arr [genEntry "cur-dataset" "ds-arn"] := by
  refine ⟨rfl, ?_⟩
  intro h
  simp only [JVal.arr.injEq] at h
  exact absurd (congrArg List.length h) (by decide)

/-- C2 (amended): when the target's declarations key holds an array,
`rebindDeclarations` replaces the array's contents with one generated
`(identifier, dataSetArn)` entry per existing stub entry — the array
keeps its length, so three stubs become three identical generated
entries and a single entry results only from a single stub. -/
theorem c2_rebind_declarations (defn : JVal) (stubs : List JVal) (arn ident : String)
    (h : objLookup defn declarationKey = some (.arr stubs)) :
    objLookup (rebindDeclarations defn arn ident) declarationKey
      = some (.arr (stubs.map (fun _ => genEntry ident arn)))
    ∧ (stubs.map (fun _ => genEntry ident arn)).length = stubs.length := by
  refine ⟨?_, by simp⟩
  unfold rebindDeclarations
  rw [h]
  match defn, h with
  | .obj entries f, h =>
    simp only [objSet, objLookup, find?_objInsert, Option.map_some']

/-- C2 (witness). -/
theorem c2_rebind_declarations_witness :
    objLookup (rebindDeclarations
        (.obj [(declarationKey, .arr [.null, .bool true, .num 3])] false) "a" "i")
        declarationKey
      = some (.arr [genEntry "i" "a", genEntry "i" "a", genEntry "i" "a"]) :=
  (c2_rebind_declarations (.obj [(declarationKey, .arr [.null, .bool true, .num 3])] false)
    [.null, .bool true, .num 3] "a" "i" rfl).1

/-- C3 (counterexample): the claim demands that `"9:00"` (not
zero-padded) and `"25:00"` (hour out of range) fail with a conversion
error, but the code never validates the shape: both convert
successfully. -/
theorem c3_counterexample :
    convertLocalTimeToUtc "9:00" "Asia/Bangkok" = .ok "02:00"
    ∧ convertLocalTimeToUtc "25:00" "Asia/Bangkok" = .ok "18:00" :=
  ⟨rfl, rfl⟩

/-- C3 (amended): `convertLocalTimeToUtc` throws exactly when the zone
identifier is not resolvable (the `Intl.DateTimeFormat` constructor
throws) or when the reference instant is invalid — `parseInt` returned
`NaN` for the hour or the minute chunk, or the instant fell outside the
`Date` range — in which case `formatToParts` throws.  Zero-padding and
the hour/minute ranges are never validated, and for a resolvable zone
and parseable time no error is raised. -/
theorem c3_error_characterization (localTime timezone : String) :
    (∃ e, convertLocalTimeToUtc localTime timezone = .error e)
      ↔ (zoneOffsetMin timezone = none ∨ referenceInstant localTime = none) := by
  unfold convertLocalTimeToUtc getTimeZoneOffset
  cases hz : zoneOffsetMin timezone with
  | none => simp
  | some o =>
    cases hr : referenceInstant localTime with
    | none => simp
    | some t => simp

/-- C4: the converter interprets the local HH:MM as UTC on the fixed
reference date 1970-01-01 and computes the zone's civil offset by
reformatting that instant in the target zone and subtracting — on the
reference window `getTimeZoneOffset` returns exactly the zone's civil
offset in milliseconds — then subtracts the offset and formats
zero-padded: `"10:00"` in `Asia/Bangkok` (UTC+7) gives `"03:00"`,
`"00:30"` in `America/New_York` (UTC−5, January standard time) gives
`"05:30"`, and `"00:30"` in `Asia/Bangkok` wraps across the day
boundary to `"17:30"`. -/
theorem c4_conversion_algorithm :
    (∀ (t o : Int) (tz : String), zoneOffsetMin tz = some o →
      -1440 ≤ o → o ≤ 1440 → 0 ≤ t → t < 86400000 → t % 60000 = 0 →
      getTimeZoneOffset (some t) tz = .ok (some (o * 60000)))
    ∧ convertLocalTimeToUtc "10:00" "Asia/Bangkok" = .ok "03:00"
    ∧ convertLocalTimeToUtc "00:30" "America/New_York" = .ok "05:30"
    ∧ convertLocalTimeToUtc "00:30" "Asia/Bangkok" = .ok "17:30" := by
  refine ⟨?_, rfl, rfl, rfl⟩
  intro t o tz hz ho1 ho2 ht1 ht2 hmin
  unfold getTimeZoneOffset
  rw [hz]
  have hrt : msFromCivil (civilFromMs (t + o * 60000)) = t + o * 60000 :=
    msFromCivil_civilFromMs _ (by omega) (by omega) (by omega)
  show Except.ok (Option.map (fun asUtc => asUtc - t)
      (timeClip (msFromCivil (civilFromMs (t + o * 60000)))))
    = Except.ok (some (o * 60000))
  rw [hrt]
  unfold timeClip
  rw [if_pos (by omega)]
  have harith : t + o * 60000 - t = o * 60000 := by ring
  simp [harith]

/-- C4 (witness): the offset computed for `Asia/Bangkok` at the
10:00 reference instant is exactly +7 hours in milliseconds. -/
theorem c4_conversion_algorithm_witness :
    getTimeZoneOffset (some 36000000) "Asia/Bangkok" = .ok (some 25200000) := by
  have h := c4_conversion_algorithm.1 36000000 420 "Asia/Bangkok" rfl
    (by norm_num) (by norm_num) (by norm_num) (by norm_num) (by norm_num)
  simpa using h

/-- C5: whenever the pre-order traversal contains a violating node —
in particular a string leaf matching a forbidden pattern at a dotted
path `a.b` — `assertNoHardCodedValues` fails with a `ValidationError`
carrying the dotted path of the first violating node in pre-order and
the supplied context, aborting there rather than collecting further
violations: every node visited before it is clean. -/
theorem c5_sanitizer_fail_fast (t : JVal) (ctx : String) (k : ViolationKind) (p : List Seg)
    (h : firstViolation t = some (k, p)) :
    assertNoHardCodedValues t ctx = .error ⟨k, dotted p, ctx⟩
    ∧ ∃ l1 v l2, preorder t [] = l1 ++ (v, p) :: l2
        ∧ (∀ np ∈ l1, nodeViolation np.1 = none)
        ∧ nodeViolation v = some k := by
  constructor
  · unfold assertNoHardCodedValues
    rw [h]
  · obtain ⟨l1, a, l2, he, h1, h2⟩ := findSome?_split _ _ _ h
    rw [Option.map_eq_some'] at h2
    obtain ⟨k2, hk2, hpair⟩ := h2
    have hk : k2 = k := (Prod.mk.injEq _ _ _ _ ▸ hpair).1
    have hp : a.2 = p := (Prod.mk.injEq _ _ _ _ ▸ hpair).2
    refine ⟨l1, a.1, l2, ?_, ?_, ?_⟩
    · rw [he, ← hp]
    · intro np hnp
      have := h1 np hnp
      rwa [Option.map_eq_none'] at this
    · rw [hk2, hk]

/-- C5 (witness): the spec's example tree, a violating ARN string at
path `a.b`. -/
theorem c5_sanitizer_fail_fast_witness :
    assertNoHardCodedValues
        (.obj [("a", .obj [("b", .str "arn:aws:svc:region:123456789012:resource/x")] false)]
          false) "tpl.json"
      = .error ⟨.arn, "a.b", "tpl.json"⟩ :=
  (c5_sanitizer_fail_fast
    (.obj [("a", .obj [("b", .str "arn:aws:svc:region:123456789012:resource/x")] false)] false)
    "tpl.json" .arn [.key "a", .key "b"] (by decide)).1

/-- C6: for every tree none of whose string leaves matches a forbidden
pattern, `assertNoHardCodedValues` returns without failing; and a string
that is an unresolved (deferred-token-marked) value is never flagged,
whatever its other content. -/
theorem c6_sanitizer_safe (t : JVal) (ctx : String)
    (h : ∀ s ∈ allStringLeaves t, matchesForbidden s = false) :
    assertNoHardCodedValues t ctx = .ok ()
    ∧ ∀ s : String, isUnresolvedString s = true → nodeViolation (.str s) = none := by
  constructor
  · have hnone : firstViolation t = none := by
      unfold firstViolation
      rw [List.findSome?_eq_none_iff]
      intro np hmem
      rw [Option.map_eq_none']
      match hnp : np with
      | (.str x, p) =>
        have hx : x ∈ allStringLeaves t := strLeaf_of_mem_preorder t [] p x (hnp ▸ hmem)
        exact stringViolation_of_clean x (h x hx)
      | (.null, _) | (.bool _, _) | (.num _, _) | (.arr _, _) | (.obj _ _, _) => rfl
    unfold assertNoHardCodedValues
    rw [hnone]
  · intro s hs
    exact stringViolation_unresolved s hs

/-- C6 (witness): a clean tree passes, and a token-marked string
containing a forbidden ARN pattern is exempt. -/
theorem c6_sanitizer_safe_witness :
    assertNoHardCodedValues
        (.obj [("a", .str "hello"), ("b", .arr [.str "not-an-arn", .num 1])] false) "ctx"
      = .ok ()
    ∧ nodeViolation (.str "arn:aws:svc:region:123456789012:res $\x7bToken[TOKEN.1]\x7d")
      = none := by
  have h := c6_sanitizer_safe
    (.obj [("a", .str "hello"), ("b", .arr [.str "not-an-arn", .num 1])] false) "ctx"
    (by decide)
  exact ⟨h.1, h.2 _ (by decide)⟩

/-- C9: `replaceStringRecursively` only rewrites array elements and
object values that are strings exactly equal to the search string,
setting each to the replacement; every other node keeps its shape — a
string leaf `"prefix-X-suffix"` is untouched when searching for `"X"`
(substrings are never rewritten), a leaf exactly `"X"` becomes the
replacement, arrays keep their length, objects keep their key list, and
non-string scalars are unchanged, at every path. -/
theorem c9_replace_frame (t : JVal) (s r : String) (p : List Seg) :
    (∀ x : String, p ≠ [] → pathGet t p = some (.str x) →
      pathGet (replaceStringRecursively t s r) p = some (.str (if x == s then r else x)))
    ∧ (∀ items, pathGet t p = some (.arr items) →
        ∃ items2 : List JVal,
          pathGet (replaceStringRecursively t s r) p = some (.arr items2)
          ∧ items2.length = items.length)
    ∧ (∀ entries f, pathGet t p = some (.obj entries f) →
        ∃ entries2,
          pathGet (replaceStringRecursively t s r) p = some (.obj entries2 f)
          ∧ entries2.map Prod.fst = entries.map Prod.fst)
    ∧ (pathGet t p = some .null → pathGet (replaceStringRecursively t s r) p = some .null)
    ∧ (∀ b, pathGet t p = some (.bool b) →
        pathGet (replaceStringRecursively t s r) p = some (.bool b))
    ∧ (∀ n, pathGet t p = some (.num n) →
        pathGet (replaceStringRecursively t s r) p = some (.num n)) := by
  refine ⟨?_, ?_, ?_, ?_, ?_, ?_⟩
  · intro x hp hget
    rw [pathGet_replace, hget, Option.map_some']
    by_cases hx : x == s
    · have : isSearchStr (.str x) s = true := hx
      simp [hp, this, hx]
    · have : isSearchStr (.str x) s = false := by simpa [isSearchStr] using hx
      simp [this, hx, replaceStringRecursively]
  · intro items hget
    rw [pathGet_replace, hget, Option.map_some']
    refine ⟨replaceList items s r, ?_, ?_⟩
    · simp [isSearchStr, replaceStringRecursively]
    · rw [replaceList_eq_map, List.length_map]
  · intro entries f hget
    rw [pathGet_replace, hget, Option.map_some']
    refine ⟨replaceEntries entries s r, ?_, ?_⟩
    · simp [isSearchStr, replaceStringRecursively]
    · rw [replaceEntries_eq_map, List.map_map]
      rfl
  · intro hget
    rw [pathGet_replace, hget, Option.map_some']
    simp [isSearchStr, replaceStringRecursively]
  · intro b hget
    rw [pathGet_replace, hget, Option.map_some']
    simp [isSearchStr, replaceStringRecursively]
  · intro n hget
    rw [pathGet_replace, hget, Option.map_some']
    simp [isSearchStr, replaceStringRecursively]

/-- C9 (witness): a leaf exactly `"X"` becomes `"Y"`, the leaf
`"prefix-X-suffix"` is untouched, and a sibling array keeps its
length. -/
theorem c9_replace_frame_witness :
    pathGet (replaceStringRecursively
        (.obj [("a", .str "X"), ("b", .str "prefix-X-suffix"), ("c", .arr [.str "X", .num 3])]
          false) "X" "Y") [.key "a"]
      = some (.str "Y")
    ∧ pathGet (replaceStringRecursively
        (.obj [("a", .str "X"), ("b", .str "prefix-X-suffix"), ("c", .arr [.str "X", .num 3])]
          false) "X" "Y") [.key "b"]
      = some (.str "prefix-X-suffix")
    ∧ ∃ items2 : List JVal,
        pathGet (replaceStringRecursively
          (.obj [("a", .str "X"), ("b", .str "prefix-X-suffix"),
            ("c", .arr [.str "X", .num 3])] false) "X" "Y") [.key "c"]
          = some (.arr items2)
        ∧ items2.length = 2 := by
  refine ⟨?_, ?_, ?_⟩
  · have h := (c9_replace_frame
      (.obj [("a", .str "X"), ("b", .str "prefix-X-suffix"), ("c", .arr [.str "X", .num 3])]
        false) "X" "Y" [.key "a"]).1 "X" (by decide) (by rfl)
    simpa using h
  · have h := (c9_replace_frame
      (.obj [("a", .str "X"), ("b", .str "prefix-X-suffix"), ("c", .arr [.str "X", .num 3])]
        false) "X" "Y" [.key "b"]).1 "prefix-X-suffix" (by decide) (by rfl)
    simpa using h
  · have h := (c9_replace_frame
      (.obj [("a", .str "X"), ("b", .str "prefix-X-suffix"), ("c", .arr [.str "X", .num 3])]
        false) "X" "Y" [.key "c"]).2.1 [.str "X", .num 3] (by rfl)
    simpa using h

/-- C7: the key normalizer is idempotent — normalizing an already
normalized tree changes nothing, for every tree (key collisions produced
by lowercasing are resolved on the first pass by last-assignment-wins,
and a second pass finds only first-char-lowercase, duplicate-free
keys). -/
theorem c7_normalize_idempotent : ∀ v : JVal,
    normalizeDefinitionKeys (normalizeDefinitionKeys v) = normalizeDefinitionKeys v
  | .null => rfl
  | .bool _ => rfl
  | .num _ => rfl
  | .str _ => rfl
  | .arr items => by
    have ih : ∀ x ∈ items,
        normalizeDefinitionKeys (normalizeDefinitionKeys x) = normalizeDefinitionKeys x :=
      fun x _ => c7_normalize_idempotent x
    show JVal.arr (normalizeList (normalizeList items)) = JVal.arr (normalizeList items)
    rw [normalizeList_eq_map, normalizeList_eq_map, List.map_map]
    exact congrArg JVal.arr (List.map_congr_left (fun x hx => ih x hx))
  | .obj entries f => by
    have ih : ∀ e ∈ entries,
        normalizeDefinitionKeys (normalizeDefinitionKeys e.2) = normalizeDefinitionKeys e.2 :=
      fun e _ => c7_normalize_idempotent e.2
    show normalizeDefinitionKeys
        (.obj (insertAll [] (normalizeEntries entries)) false)
      = .obj (insertAll [] (normalizeEntries entries)) false
    have hfix : ∀ e ∈ insertAll [] (normalizeEntries entries),
        lowerFirst e.1 = e.1 ∧ normalizeDefinitionKeys e.2 = e.2 := by
      intro e he
      rcases mem_insertAll _ _ _ he with h0 | h0
      · simp at h0
      · rw [normalizeEntries_eq_map] at h0
        obtain ⟨x, hx, hfx⟩ := List.mem_map.mp h0
        constructor
        · rw [← hfx]
          exact lowerFirst_idem x.1
        · rw [← hfx]
          exact ih x hx
    have hnd : ((insertAll [] (normalizeEntries entries)).map Prod.fst).Nodup :=
      nodup_keys_insertAll _ [] List.nodup_nil
    show JVal.obj (insertAll [] (normalizeEntries (insertAll [] (normalizeEntries entries)))) false
      = JVal.obj (insertAll [] (normalizeEntries entries)) false
    rw [normalizeEntries_fixed _ hfix,
      insertAll_of_fresh _ [] hnd (by intro e _ hmem; simp at hmem), List.nil_append]
termination_by v => sizeOf v
decreasing_by
  · have := List.sizeOf_lt_of_mem ‹x ∈ items›
    simp only [JVal.arr.sizeOf_spec]
    omega
  · rename_i he
    obtain ⟨a, b⟩ := e
    have h1 := List.sizeOf_lt_of_mem he
    simp only [JVal.obj.sizeOf_spec, Prod.mk.sizeOf_spec] at h1 ⊢
    omega

/-- C8 (counterexample): an object carrying the unresolved flag (an
`IResolvable`) is not passed through unchanged by the normalizer — it is
descended into and rebuilt as a plain object with lowercased keys,
because `normalizeDefinitionKeys`, unlike `visitJson`, has no
`Token.isUnresolved` guard before its `typeof 'object'` branch. -/
theorem c8_counterexample :
    normalizeDefinitionKeys (.obj [("K", .null)] true) = .obj [("k", .null)] false
    ∧ JVal.obj [("k", .null)] false ≠ JVal.obj [("K", .null)] true := by
  refine ⟨rfl, fun h => ?_⟩
  simp only [JVal.obj.injEq] at h
  exact Bool.false_ne_true h.2

/-- C8 (amended): the normalizer returns a new tree in which scalars
(null, booleans, numbers, strings) pass through unchanged, arrays are
normalized element-wise, and every object — a plain one and equally an
`Unresolved` one, which is not special-cased — is rebuilt as a fresh
plain object whose keys have their first character lowercased with the
remainder unchanged and whose values are recursively normalized,
assigned in entry order. -/
theorem c8_normalize_characterization :
    (normalizeDefinitionKeys .null = .null)
    ∧ (∀ b, normalizeDefinitionKeys (.bool b) = .bool b)
    ∧ (∀ n, normalizeDefinitionKeys (.num n) = .num n)
    ∧ (∀ s, normalizeDefinitionKeys (.str s) = .str s)
    ∧ (∀ items, normalizeDefinitionKeys (.arr items)
        = .arr (items.map normalizeDefinitionKeys))
    ∧ (∀ entries f, normalizeDefinitionKeys (.obj entries f)
        = .obj (insertAll []
            (entries.map (fun e => (lowerFirst e.1, normalizeDefinitionKeys e.2)))) false) := by
  refine ⟨rfl, fun b => rfl, fun n => rfl, fun s => rfl, fun items => ?_, fun entries f => ?_⟩
  · show JVal.arr (normalizeList items) = _
    rw [normalizeList_eq_map]
  · show JVal.obj (insertAll [] (normalizeEntries entries)) false = _
    rw [normalizeEntries_eq_map]

/-- C10: a root value that is itself a string is never replaced by
`replaceStringRecursively`, even when it equals the search string —
replacement happens only to strings reached as an array element or an
object value, as the same string one level down shows. -/
theorem c10_root_string_untouched :
    (∀ x s r : String, replaceStringRecursively (.str x) s r = .str x)
    ∧ (∀ s r : String, replaceStringRecursively (.str s) s r = .str s)
    ∧ (∀ s r : String, replaceStringRecursively (.arr [.str s]) s r = .arr [.str r])
    ∧ (∀ s r k : String,
        replaceStringRecursively (.obj [(k, .str s)] false) s r = .obj [(k, .str r)] false) := by
  refine ⟨fun x s r => rfl, fun s r => rfl, fun s r => ?_, fun s r k => ?_⟩
  · simp [replaceStringRecursively, replaceList, isSearchStr]
  · simp [replaceStringRecursively, replaceEntries, isSearchStr]

end CurQS
